import Mathlib

/-!
Verification development for the MV2DFusion repository.

This file gives a shallow embedding, over exact rational arithmetic, of:

* `HungarianAssigner3D.assign`
  (projects/mmdet3d_plugin/core/bbox/assigners/hungarian_assigner_3d.py),
* `NMSFreeCoder.decode_single`
  (projects/mmdet3d_plugin/core/bbox/coders/nms_free_coder.py),
* `MV2DFusionTransformerDecoder.forward`
  (projects/mmdet3d_plugin/models/utils/mv2dfusion_transformer.py),

and proves the properties claimed for them.  Tensors are embedded as lists
(a matrix is a list of rows); the learned neural modules, the match-cost
functions built from configs, the sigmoid/softmax/log kernels and the
normalize/denormalize helpers that live outside the sources are taken as
opaque function parameters, exactly as they are opaque callables at the
Python call sites.  Floating-point entries that may be NaN or infinite are
embedded by `FloatVal`.
-/

namespace MV2DFusion

/-- Value of a floating-point tensor entry: a finite rational or one of the
special values NaN, +inf, -inf. -/
inductive FloatVal where
  | nan : FloatVal
  | posinf : FloatVal
  | neginf : FloatVal
  | finite : ℚ → FloatVal
deriving DecidableEq, Repr

/-- IEEE-style addition on extended values, as in torch tensor addition:
NaN propagates, opposite infinities give NaN. -/
def FloatVal.add : FloatVal → FloatVal → FloatVal
  | .nan, _ => .nan
  | _, .nan => .nan
  | .posinf, .neginf => .nan
  | .neginf, .posinf => .nan
  | .posinf, _ => .posinf
  | _, .posinf => .posinf
  | .neginf, _ => .neginf
  | _, .neginf => .neginf
  | .finite a, .finite b => .finite (a + b)

/-- Whether an extended value is an ordinary finite number. -/
def FloatVal.isFinite : FloatVal → Bool
  | .finite _ => true
  | _ => false

/-- The rational carried by a finite extended value (0 for special values;
only ever used after sanitization, where no special value remains). -/
def FloatVal.val : FloatVal → ℚ
  | .finite q => q
  | _ => 0

/-- `torch.nan_to_num(cost, nan=100.0, posinf=100.0, neginf=-100.0)`,
hungarian_assigner_3d.py line 109, applied entrywise. -/
def nan_to_num : FloatVal → FloatVal
  | .nan => .finite 100
  | .posinf => .finite 100
  | .neginf => .finite (-100)
  | .finite q => .finite q

/-- Entrywise sum of two matrices of extended values (`cls_cost + reg_cost`,
hungarian_assigner_3d.py line 76). -/
def matAdd (A B : List (List FloatVal)) : List (List FloatVal) :=
  (A.zip B).map fun p => (p.1.zip p.2).map fun q => FloatVal.add q.1 q.2

/-! ### The bipartite matching oracle

`scipy.optimize.linear_sum_assignment` is imported from scipy and is not part
of this repository's sources, so it is modelled from the spec below. -/

/-- All injective tuples of length `k` with entries drawn from `[0, m)`. -/
def injTuples (m : ℕ) : ℕ → List (List ℕ)
  | 0 => [[]]
  | k + 1 =>
    (injTuples m k).flatMap fun s =>
      ((List.range m).filter fun c => !s.contains c).map fun c => s ++ [c]

/-- All one-to-one matchings of size `min n m` on an `n × m` cost matrix, as
lists of (row, column) pairs: for `n ≤ m` every row in order paired with an
injective tuple of columns, otherwise an injective tuple of rows paired with
every column in order. -/
def allMatchings (n m : ℕ) : List (List (ℕ × ℕ)) :=
  if n ≤ m then (injTuples m n).map fun s => (List.range n).zip s
  else (injTuples n m).map fun s => s.zip (List.range m)

/-- Summed cost of a matching over a cost matrix. -/
def totalCost (cost : List (List ℚ)) (p : List (ℕ × ℕ)) : ℚ :=
  (p.map fun rc => (cost.getD rc.1 []).getD rc.2 0).sum

/-- First minimizer of `f` among `a :: l`. -/
def minBy {α : Type} (f : α → ℚ) (a : α) (l : List α) : α :=
  l.foldl (fun b x => if f x < f b then x else b) a

/-- Modelled from the spec: `scipy.optimize.linear_sum_assignment`, the
matching step of hungarian_assigner_3d.py line 110, is not part of the
repository sources.  Per the spec it is "a well-known combinatorial algorithm
already provided by a standard scientific library" performing "optimal
bipartite assignment minimizing total cost"; it is modelled as the matching
of size `min n m` with minimal summed cost, picked among all of them. -/
def linear_sum_assignment (cost : List (List ℚ)) : List (ℕ × ℕ) :=
  match allMatchings cost.length cost.headI.length with
  | [] => []
  | c :: cs => minBy (totalCost cost) c cs

theorem minBy_mem {α : Type} (f : α → ℚ) (a : α) (l : List α) :
    minBy f a l ∈ a :: l := by
  induction l generalizing a with
  | nil => simp [minBy]
  | cons x xs ih =>
    have hunf : minBy f a (x :: xs) = minBy f (if f x < f a then x else a) xs := rfl
    rw [hunf]
    have h := ih (if f x < f a then x else a)
    rw [List.mem_cons] at h
    rcases h with h | h
    · rw [h]
      split
      · exact List.mem_cons_of_mem a (List.mem_cons_self x xs)
      · exact List.mem_cons_self a (x :: xs)
    · exact List.mem_cons_of_mem a (List.mem_cons_of_mem x h)

theorem minBy_le {α : Type} (f : α → ℚ) (a : α) (l : List α) :
    ∀ y ∈ a :: l, f (minBy f a l) ≤ f y := by
  induction l generalizing a with
  | nil => intro y hy; simp at hy; simp [minBy, hy]
  | cons x xs ih =>
    intro y hy
    have hbase : f (if f x < f a then x else a) ≤ f a ∧
        f (if f x < f a then x else a) ≤ f x := by
      constructor
      · split
        · exact le_of_lt (by assumption)
        · exact le_rfl
      · split
        · exact le_rfl
        · exact le_of_not_lt (by assumption)
    have hunf : minBy f a (x :: xs) = minBy f (if f x < f a then x else a) xs := rfl
    have hmin : f (minBy f a (x :: xs)) ≤ f (if f x < f a then x else a) := by
      rw [hunf]
      exact ih (if f x < f a then x else a) (if f x < f a then x else a)
        (List.mem_cons_self _ _)
    rcases List.mem_cons.mp hy with rfl | hy
    · exact le_trans hmin hbase.1
    rcases List.mem_cons.mp hy with rfl | hy
    · exact le_trans hmin hbase.2
    · rw [hunf]
      exact ih (if f x < f a then x else a) y (List.mem_cons_of_mem _ hy)

theorem injTuples_sound {m k : ℕ} {s : List ℕ} (h : s ∈ injTuples m k) :
    s.length = k ∧ s.Nodup ∧ ∀ x ∈ s, x < m := by
  induction k generalizing s with
  | zero => simp [injTuples] at h; simp [h]
  | succ k ih =>
    simp only [injTuples, List.mem_flatMap, List.mem_map, List.mem_filter,
      List.mem_range] at h
    obtain ⟨t, ht, c, ⟨hcm, hcnot⟩, rfl⟩ := h
    obtain ⟨hlen, hnd, hlt⟩ := ih ht
    have hcmem : c ∉ t := by
      intro hc
      simp [List.elem_iff, hc] at hcnot
    refine ⟨by simp [hlen], ?_, ?_⟩
    · simp [List.nodup_append, hnd, hcmem]
    · intro x hx
      rcases List.mem_append.mp hx with hx | hx
      · exact hlt x hx
      · simp at hx; omega

theorem injTuples_complete {m k : ℕ} {s : List ℕ} (hlen : s.length = k)
    (hnd : s.Nodup) (hlt : ∀ x ∈ s, x < m) : s ∈ injTuples m k := by
  induction k generalizing s with
  | zero =>
    have : s = [] := List.length_eq_zero.mp hlen
    simp [injTuples, this]
  | succ k ih =>
    rcases List.eq_nil_or_concat s with rfl | ⟨t, c, rfl⟩
    · simp at hlen
    simp only [List.concat_eq_append] at *
    have hndt : t.Nodup := (List.nodup_append.mp hnd).1
    have hcnot : c ∉ t := by
      have := (List.nodup_append.mp hnd).2.2
      intro hc
      exact this hc (by simp)
    have hlent : t.length = k := by
      simp at hlen; omega
    simp only [injTuples, List.mem_flatMap]
    refine ⟨t, ih hlent hndt (fun x hx => hlt x (List.mem_append_left _ hx)), ?_⟩
    simp only [List.mem_map, List.mem_filter, List.mem_range]
    exact ⟨c, ⟨hlt c (by simp), by simp [List.elem_iff, hcnot]⟩, rfl⟩

theorem injTuples_ne_nil {m k : ℕ} (h : k ≤ m) : injTuples m k ≠ [] := by
  intro hnil
  have : List.range k ∈ injTuples m k :=
    injTuples_complete (by simp) (List.nodup_range k)
      (fun x hx => lt_of_lt_of_le (List.mem_range.mp hx) h)
  rw [hnil] at this
  exact absurd this (List.not_mem_nil _)

theorem allMatchings_ne_nil (n m : ℕ) : allMatchings n m ≠ [] := by
  unfold allMatchings
  split
  · intro h
    exact injTuples_ne_nil (by assumption) (List.map_eq_nil_iff.mp h)
  · intro h
    exact injTuples_ne_nil (by omega) (List.map_eq_nil_iff.mp h)

theorem allMatchings_sound {n m : ℕ} {p : List (ℕ × ℕ)}
    (h : p ∈ allMatchings n m) :
    p.length = min n m ∧ (p.map Prod.fst).Nodup ∧ (p.map Prod.snd).Nodup ∧
      ∀ rc ∈ p, rc.1 < n ∧ rc.2 < m := by
  unfold allMatchings at h
  split at h
  case isTrue hnm =>
    obtain ⟨s, hs, rfl⟩ := List.mem_map.mp h
    obtain ⟨hlen, hnd, hlt⟩ := injTuples_sound hs
    have hlr : (List.range n).length ≤ s.length := by simp [hlen]
    have hrl : s.length ≤ (List.range n).length := by simp [hlen]
    have hfst : ((List.range n).zip s).map Prod.fst = List.range n :=
      List.map_fst_zip _ _ hlr
    have hsnd : ((List.range n).zip s).map Prod.snd = s :=
      List.map_snd_zip _ _ hrl
    refine ⟨?_, ?_, ?_, ?_⟩
    · simp [List.length_zip, hlen]; omega
    · rw [hfst]; exact List.nodup_range n
    · rw [hsnd]; exact hnd
    · intro rc hrc
      obtain ⟨h1, h2⟩ := List.of_mem_zip hrc
      exact ⟨List.mem_range.mp h1, hlt _ h2⟩
  case isFalse hnm =>
    obtain ⟨s, hs, rfl⟩ := List.mem_map.mp h
    obtain ⟨hlen, hnd, hlt⟩ := injTuples_sound hs
    have hlr : s.length ≤ (List.range m).length := by simp [hlen]
    have hrl : (List.range m).length ≤ s.length := by simp [hlen]
    have hfst : (s.zip (List.range m)).map Prod.fst = s :=
      List.map_fst_zip _ _ hlr
    have hsnd : (s.zip (List.range m)).map Prod.snd = List.range m :=
      List.map_snd_zip _ _ hrl
    refine ⟨?_, ?_, ?_, ?_⟩
    · simp [List.length_zip, hlen]; omega
    · rw [hfst]; exact hnd
    · rw [hsnd]; exact List.nodup_range m
    · intro rc hrc
      obtain ⟨h1, h2⟩ := List.of_mem_zip hrc
      exact ⟨hlt _ h1, List.mem_range.mp h2⟩

theorem lsa_mem (cost : List (List ℚ)) :
    linear_sum_assignment cost ∈ allMatchings cost.length cost.headI.length := by
  unfold linear_sum_assignment
  rcases hM : allMatchings cost.length cost.headI.length with _ | ⟨c, cs⟩
  · exact absurd hM (allMatchings_ne_nil _ _)
  · exact minBy_mem (totalCost cost) c cs

theorem lsa_le_all (cost : List (List ℚ)) {q : List (ℕ × ℕ)}
    (hq : q ∈ allMatchings cost.length cost.headI.length) :
    totalCost cost (linear_sum_assignment cost) ≤ totalCost cost q := by
  unfold linear_sum_assignment
  rcases hM : allMatchings cost.length cost.headI.length with _ | ⟨c, cs⟩
  · rw [hM] at hq; exact absurd hq (List.not_mem_nil _)
  · rw [hM] at hq
    exact minBy_le (totalCost cost) c cs q hq

theorem perm_range_of_nodup_lt {l : List ℕ} {k : ℕ} (hlen : l.length = k)
    (hnd : l.Nodup) (hlt : ∀ x ∈ l, x < k) : l.Perm (List.range k) := by
  have hsub : l ⊆ List.range k := fun x hx => List.mem_range.mpr (hlt x hx)
  exact (List.subperm_of_subset hnd hsub).perm_of_length_le (by simp [hlen])

theorem exists_zip_perm {p : List (ℕ × ℕ)} {k : ℕ}
    (h : (p.map Prod.fst).Perm (List.range k)) :
    ∃ s : List ℕ, s.length = k ∧ p.Perm ((List.range k).zip s) := by
  induction k generalizing p with
  | zero =>
    have h0 : p.map Prod.fst = [] := List.Perm.eq_nil (by simpa using h)
    have hp : p = [] := by simpa using h0
    exact ⟨[], rfl, by simp [hp]⟩
  | succ k ih =>
    have hkmem : k ∈ p.map Prod.fst :=
      h.mem_iff.mpr (List.mem_range.mpr (Nat.lt_succ_self k))
    obtain ⟨rc, hrc, hfst⟩ := List.mem_map.mp hkmem
    obtain ⟨rca, rcb⟩ := rc
    simp only at hfst
    have hfst2 : k = rca := hfst.symm
    subst hfst2
    obtain ⟨l1, l2, rfl⟩ := List.append_of_mem hrc
    have hperm1 : (l1 ++ (k, rcb) :: l2).Perm ((k, rcb) :: (l1 ++ l2)) :=
      List.perm_middle
    have hmapperm : ((l1 ++ (k, rcb) :: l2).map Prod.fst).Perm
        (k :: (l1 ++ l2).map Prod.fst) := by
      simpa using hperm1.map Prod.fst
    have hrange : (List.range (k + 1)).Perm (k :: List.range k) := by
      rw [List.range_succ]
      exact List.perm_append_singleton k (List.range k)
    have htail : ((l1 ++ l2).map Prod.fst).Perm (List.range k) := by
      have hchain : (k :: (l1 ++ l2).map Prod.fst).Perm (k :: List.range k) :=
        (hmapperm.symm.trans h).trans hrange
      exact hchain.cons_inv
    obtain ⟨s, hslen, hperm2⟩ := ih htail
    refine ⟨s ++ [rcb], by simp [hslen], ?_⟩
    have hzip : (List.range (k + 1)).zip (s ++ [rcb]) =
        (List.range k).zip s ++ [(k, rcb)] := by
      rw [List.range_succ, List.zip_append (by simp [hslen])]
      simp
    have hstep : (l1 ++ (k, rcb) :: l2).Perm ((k, rcb) :: (List.range k).zip s) :=
      hperm1.trans (hperm2.cons (k, rcb))
    rw [hzip]
    exact hstep.trans (List.perm_append_singleton (k, rcb) ((List.range k).zip s)).symm

theorem matching_mem_allMatchings {n m : ℕ} {p : List (ℕ × ℕ)}
    (hlen : p.length = min n m) (hf : (p.map Prod.fst).Nodup)
    (hs : (p.map Prod.snd).Nodup) (hb : ∀ rc ∈ p, rc.1 < n ∧ rc.2 < m) :
    ∃ q ∈ allMatchings n m, p.Perm q := by
  by_cases hnm : n ≤ m
  · have hmin : min n m = n := min_eq_left hnm
    have hflen : (p.map Prod.fst).length = n := by simp [hlen, hmin]
    have hflt : ∀ x ∈ p.map Prod.fst, x < n := by
      intro x hx
      obtain ⟨rc, hrc, rfl⟩ := List.mem_map.mp hx
      exact (hb rc hrc).1
    obtain ⟨s, hslen, hperm⟩ := exists_zip_perm (perm_range_of_nodup_lt hflen hf hflt)
    have hsndeq : ((List.range n).zip s).map Prod.snd = s :=
      List.map_snd_zip _ _ (by simp [hslen])
    have hsndperm : (p.map Prod.snd).Perm s := by
      have hmp := hperm.map Prod.snd
      rwa [hsndeq] at hmp
    have hsnodup : s.Nodup := hsndperm.nodup_iff.mp hs
    have hslt : ∀ x ∈ s, x < m := by
      intro x hx
      obtain ⟨rc, hrc, rfl⟩ := List.mem_map.mp (hsndperm.mem_iff.mpr hx)
      exact (hb rc hrc).2
    refine ⟨(List.range n).zip s, ?_, hperm⟩
    unfold allMatchings
    rw [if_pos hnm]
    exact List.mem_map.mpr ⟨s, injTuples_complete hslen hsnodup hslt, rfl⟩
  · have hmin : min n m = m := min_eq_right (le_of_lt (lt_of_not_le hnm))
    have hqf : (p.map Prod.swap).map Prod.fst = p.map Prod.snd := by
      rw [List.map_map]
      rfl
    have hqs : (p.map Prod.swap).map Prod.snd = p.map Prod.fst := by
      rw [List.map_map]
      rfl
    have hslen0 : (p.map Prod.swap).map Prod.fst = p.map Prod.snd := hqf
    have hflen : ((p.map Prod.swap).map Prod.fst).length = m := by
      simp [hqf, hlen, hmin]
    have hflt : ∀ x ∈ (p.map Prod.swap).map Prod.fst, x < m := by
      rw [hqf]
      intro x hx
      obtain ⟨rc, hrc, rfl⟩ := List.mem_map.mp hx
      exact (hb rc hrc).2
    have hfnd : ((p.map Prod.swap).map Prod.fst).Nodup := by
      rw [hqf]
      exact hs
    obtain ⟨s, hslen, hperm⟩ := exists_zip_perm (perm_range_of_nodup_lt hflen hfnd hflt)
    have hswapswap : (p.map Prod.swap).map Prod.swap = p := by
      rw [List.map_map]
      simp
    have hperm2 : p.Perm (s.zip (List.range m)) := by
      have hmp := hperm.map Prod.swap
      rw [hswapswap, List.zip_swap] at hmp
      exact hmp
    have hsndeq : ((List.range m).zip s).map Prod.snd = s :=
      List.map_snd_zip _ _ (by simp [hslen])
    have hsperm : (p.map Prod.fst).Perm s := by
      have hmp := hperm.map Prod.snd
      rw [hsndeq, hqs] at hmp
      exact hmp
    have hsnodup : s.Nodup := hsperm.nodup_iff.mp hf
    have hslt : ∀ x ∈ s, x < n := by
      intro x hx
      obtain ⟨rc, hrc, rfl⟩ := List.mem_map.mp (hsperm.mem_iff.mpr hx)
      exact (hb rc hrc).1
    refine ⟨s.zip (List.range m), ?_, hperm2⟩
    unfold allMatchings
    rw [if_neg hnm]
    exact List.mem_map.mpr ⟨s, injTuples_complete hslen hsnodup hslt, rfl⟩

theorem totalCost_perm (cost : List (List ℚ)) {p q : List (ℕ × ℕ)} (h : p.Perm q) :
    totalCost cost p = totalCost cost q :=
  (h.map _).sum_eq

theorem lsa_optimal (cost : List (List ℚ)) {p : List (ℕ × ℕ)}
    (hlen : p.length = min cost.length cost.headI.length)
    (hf : (p.map Prod.fst).Nodup) (hs : (p.map Prod.snd).Nodup)
    (hb : ∀ rc ∈ p, rc.1 < cost.length ∧ rc.2 < cost.headI.length) :
    totalCost cost (linear_sum_assignment cost) ≤ totalCost cost p := by
  obtain ⟨q, hqmem, hpq⟩ := matching_mem_allMatchings hlen hf hs hb
  rw [totalCost_perm cost hpq]
  exact lsa_le_all cost hqmem

/-! ### HungarianAssigner3D.assign
(projects/mmdet3d_plugin/core/bbox/assigners/hungarian_assigner_3d.py,
lines 37-139).  The match-cost callables `self.cls_cost` / `self.reg_cost`
built by `build_match_cost` and the out-of-tree helper `normalize_bbox` are
opaque at the call site and enter the embedding as function parameters; so
does the availability of scipy (lines 12-15). -/

/-- mmdet `AssignResult` as constructed at lines 60 and 139. -/
structure AssignResult where
  num_gts : ℕ
  assigned_gt_inds : List ℤ
  max_overlaps : Option (List ℚ)
  labels : List ℤ
deriving DecidableEq, Repr

/-- The two failure modes of `assign`: the input-validation assertion at
lines 48-50 and the ImportError at lines 105-108. -/
inductive AssignError where
  | gtBboxesIgnoreUnsupported : AssignError
  | scipyMissing : AssignError
deriving DecidableEq, Repr

/-- Everything `assign` reads: its arguments plus the opaque environment
(cost callables, `normalize_bbox`, scipy availability). -/
structure AssignIn where
  clsCostFn : List (List ℚ) → List ℤ → List (List FloatVal)
  regCostFn : List (List ℚ) → List (List ℚ) → List (List FloatVal)
  normalize_bbox : List (List ℚ) → List (List ℚ)
  scipyAvailable : Bool
  bbox_pred : List (List ℚ)
  cls_pred : List (List ℚ)
  gt_bboxes : List (List ℚ)
  gt_labels : List ℤ
  gt_bboxes_ignore : Option (List (List ℚ))
  code_weights : Option (List ℚ)
  with_velo : Bool

/-- Row-wise multiplication by `code_weights` (lines 66-68); identity when
`code_weights is None`. -/
def scaleRows (w : Option (List ℚ)) (rows : List (List ℚ)) : List (List ℚ) :=
  match w with
  | none => rows
  | some cw => rows.map fun r => (r.zip cw).map fun p => p.1 * p.2

/-- The weighted cost matrix `cost = cls_cost + reg_cost` of lines 61-76;
when `with_velo` is false the regression cost sees only the first 8 code
dimensions of each box (line 73). -/
def costMatrix (a : AssignIn) : List (List FloatVal) :=
  let cls_cost := a.clsCostFn a.cls_pred a.gt_labels
  let normalized_gt_bboxes := a.normalize_bbox a.gt_bboxes
  let bp := scaleRows a.code_weights a.bbox_pred
  let ngt := scaleRows a.code_weights normalized_gt_bboxes
  let reg_cost :=
    if a.with_velo then a.regCostFn bp ngt
    else a.regCostFn (bp.map fun r => r.take 8) (ngt.map fun r => r.take 8)
  matAdd cls_cost reg_cost

/-- The cost matrix after `torch.nan_to_num` (line 109). -/
def sanitizedCost (a : AssignIn) : List (List FloatVal) :=
  (costMatrix a).map fun row => row.map nan_to_num

/-- The sanitized cost matrix read as plain rationals, as handed to
`linear_sum_assignment` (line 110). -/
def sanitizedCostQ (a : AssignIn) : List (List ℚ) :=
  (sanitizedCost a).map fun row => row.map FloatVal.val

/-- `HungarianAssigner3D.assign` (lines 37-139): validation assertion,
degenerate empty-input branch (lines 55-60), cost computation, sanitization,
matching, and the background/foreground scatter of lines 133-139. -/
def assign (a : AssignIn) : Except AssignError AssignResult :=
  if a.gt_bboxes_ignore.isSome then .error .gtBboxesIgnoreUnsupported
  else
    let num_gts := a.gt_bboxes.length
    let num_bboxes := a.bbox_pred.length
    let assigned_gt_inds : List ℤ := List.replicate num_bboxes (-1)
    let assigned_labels : List ℤ := List.replicate num_bboxes (-1)
    if num_gts = 0 ∨ num_bboxes = 0 then
      .ok { num_gts := num_gts
            assigned_gt_inds :=
              if num_gts = 0 then List.replicate num_bboxes 0 else assigned_gt_inds
            max_overlaps := none
            labels := assigned_labels }
    else if a.scipyAvailable then
      let matched := linear_sum_assignment (sanitizedCostQ a)
      let inds := matched.foldl
        (fun l rc => l.set rc.1 ((rc.2 : ℤ) + 1)) (List.replicate num_bboxes 0)
      let labs := matched.foldl
        (fun l rc => l.set rc.1 (a.gt_labels.getD rc.2 (-1))) assigned_labels
      .ok { num_gts := num_gts
            assigned_gt_inds := inds
            max_overlaps := none
            labels := labs }
    else .error .scipyMissing

theorem getD_set_ne {l : List ℤ} {j i : ℕ} {a d : ℤ} (h : i ≠ j) :
    (l.set j a).getD i d = l.getD i d := by
  rw [List.getD_eq_getElem?_getD, List.getD_eq_getElem?_getD,
    List.getElem?_set_ne (Ne.symm h)]

theorem getD_set_self {l : List ℤ} {i : ℕ} {a d : ℤ} (h : i < l.length) :
    (l.set i a).getD i d = a := by
  rw [List.getD_eq_getElem?_getD, List.getElem?_set_eq_of_lt a h]
  rfl

theorem foldl_set_length (g : ℕ × ℕ → ℤ) (ps : List (ℕ × ℕ)) (init : List ℤ) :
    (ps.foldl (fun l rc => l.set rc.1 (g rc)) init).length = init.length := by
  induction ps generalizing init with
  | nil => rfl
  | cons x xs ih => simp [List.foldl_cons, ih]

theorem foldl_set_getD_of_not_mem {g : ℕ × ℕ → ℤ} {ps : List (ℕ × ℕ)}
    {init : List ℤ} {i : ℕ} {d : ℤ} (h : i ∉ ps.map Prod.fst) :
    (ps.foldl (fun l rc => l.set rc.1 (g rc)) init).getD i d = init.getD i d := by
  induction ps generalizing init with
  | nil => rfl
  | cons x xs ih =>
    simp only [List.map_cons, List.mem_cons, not_or] at h
    rw [List.foldl_cons, ih h.2, getD_set_ne h.1]

theorem foldl_set_getD_of_mem {g : ℕ × ℕ → ℤ} {ps : List (ℕ × ℕ)}
    {init : List ℤ} {i c : ℕ} {d : ℤ} (hnd : (ps.map Prod.fst).Nodup)
    (hmem : (i, c) ∈ ps) (hlt : i < init.length) :
    (ps.foldl (fun l rc => l.set rc.1 (g rc)) init).getD i d = g (i, c) := by
  induction ps generalizing init with
  | nil => exact absurd hmem (List.not_mem_nil _)
  | cons x xs ih =>
    rw [List.map_cons, List.nodup_cons] at hnd
    rcases List.mem_cons.mp hmem with rfl | hmem2
    · have hnot : i ∉ xs.map Prod.fst := by
        simpa using hnd.1
      rw [List.foldl_cons, foldl_set_getD_of_not_mem hnot, getD_set_self hlt]
    · have hxi : x.1 ≠ i := by
        intro hxeq
        exact hnd.1 (hxeq ▸ List.mem_map.mpr ⟨(i, c), hmem2, rfl⟩)
      rw [List.foldl_cons]
      exact ih hnd.2 hmem2 (by simpa using hlt)

theorem getD_replicate {n i : ℕ} {x d : ℤ} (h : i < n) :
    (List.replicate n x).getD i d = x := by
  rw [List.getD_eq_getElem?_getD, List.getElem?_replicate, if_pos h]
  rfl

theorem getD_replicate_zero (n i : ℕ) :
    (List.replicate n (0 : ℤ)).getD i 0 = 0 := by
  rw [List.getD_eq_getElem?_getD, List.getElem?_replicate]
  split
  · rfl
  · rfl

theorem headI_length_of_shape {M : List (List ℚ)} {m : ℕ} (hne : M ≠ [])
    (hcols : ∀ r ∈ M, r.length = m) : M.headI.length = m := by
  cases M with
  | nil => exact absurd rfl hne
  | cons r rest => exact hcols r (List.mem_cons_self _ _)

/-- In the non-degenerate branch, `assign` returns exactly the scatter of the
matching produced on the sanitized cost matrix. -/
theorem assign_main (a : AssignIn) (hign : a.gt_bboxes_ignore = none)
    (hscipy : a.scipyAvailable = true) (hg : 0 < a.gt_bboxes.length)
    (hb : 0 < a.bbox_pred.length) :
    assign a = .ok
      { num_gts := a.gt_bboxes.length
        assigned_gt_inds := (linear_sum_assignment (sanitizedCostQ a)).foldl
          (fun l rc => l.set rc.1 ((rc.2 : ℤ) + 1))
          (List.replicate a.bbox_pred.length 0)
        max_overlaps := none
        labels := (linear_sum_assignment (sanitizedCostQ a)).foldl
          (fun l rc => l.set rc.1 (a.gt_labels.getD rc.2 (-1)))
          (List.replicate a.bbox_pred.length (-1)) } := by
  unfold assign
  rw [hign, hscipy]
  simp only [Option.isSome_none, Bool.false_eq_true, if_false, if_true]
  rw [if_neg (by omega)]

/-- C1: for every non-degenerate input (`num_gts > 0` and `num_bboxes > 0`),
the matched row/column pairs produced inside `HungarianAssigner3D.assign`
form a one-to-one matching of size `min num_gts num_bboxes` between
prediction indices (rows, bounded by `num_bboxes`) and ground-truth indices
(columns, bounded by `num_gts`) that minimizes the total summed cost over
the sanitized cost matrix among all one-to-one matchings of that size. -/
theorem C1_hungarian_matching_optimal (a : AssignIn)
    (hg : 0 < a.gt_bboxes.length) (hb : 0 < a.bbox_pred.length)
    (hrows : (sanitizedCostQ a).length = a.bbox_pred.length)
    (hcols : ∀ r ∈ sanitizedCostQ a, r.length = a.gt_bboxes.length) :
    (linear_sum_assignment (sanitizedCostQ a)).length
        = min a.bbox_pred.length a.gt_bboxes.length ∧
    ((linear_sum_assignment (sanitizedCostQ a)).map Prod.fst).Nodup ∧
    ((linear_sum_assignment (sanitizedCostQ a)).map Prod.snd).Nodup ∧
    (∀ rc ∈ linear_sum_assignment (sanitizedCostQ a),
        rc.1 < a.bbox_pred.length ∧ rc.2 < a.gt_bboxes.length) ∧
    ∀ p : List (ℕ × ℕ),
      p.length = min a.bbox_pred.length a.gt_bboxes.length →
      (p.map Prod.fst).Nodup → (p.map Prod.snd).Nodup →
      (∀ rc ∈ p, rc.1 < a.bbox_pred.length ∧ rc.2 < a.gt_bboxes.length) →
      totalCost (sanitizedCostQ a) (linear_sum_assignment (sanitizedCostQ a)) ≤
        totalCost (sanitizedCostQ a) p := by
  have hne : sanitizedCostQ a ≠ [] := by
    intro h0
    rw [h0] at hrows
    simp at hrows
    omega
  have hhead : (sanitizedCostQ a).headI.length = a.gt_bboxes.length :=
    headI_length_of_shape hne hcols
  have hsound := allMatchings_sound (lsa_mem (sanitizedCostQ a))
  rw [hrows, hhead] at hsound
  refine ⟨hsound.1, hsound.2.1, hsound.2.2.1, hsound.2.2.2, ?_⟩
  intro p hplen hpf hps hpb
  exact lsa_optimal _ (by rw [hrows, hhead]; exact hplen) hpf hps
    (by rw [hrows, hhead]; exact hpb)

/-- C2: for every call with `num_gts > 0` and `num_bboxes > 0`, the
returned `AssignResult` gives every prediction index outside the matched
rows the background value 0 with label -1, gives every matched prediction
index the value (matched ground-truth index + 1) with the ground truth's
label, and the cost matrix this matching is derived from is the sum of the
classification cost and the regression cost, the latter restricted to the
first 8 code dimensions when `with_velo` is false. -/
theorem C2_assign_result_structure (a : AssignIn)
    (hign : a.gt_bboxes_ignore = none) (hscipy : a.scipyAvailable = true)
    (hg : 0 < a.gt_bboxes.length) (hb : 0 < a.bbox_pred.length)
    (hrows : (sanitizedCostQ a).length = a.bbox_pred.length) :
    ∃ res : AssignResult, assign a = .ok res ∧
      res.num_gts = a.gt_bboxes.length ∧
      res.assigned_gt_inds.length = a.bbox_pred.length ∧
      res.labels.length = a.bbox_pred.length ∧
      res.max_overlaps = none ∧
      (∀ i, i < a.bbox_pred.length →
        i ∉ (linear_sum_assignment (sanitizedCostQ a)).map Prod.fst →
        res.assigned_gt_inds.getD i (-1) = 0 ∧ res.labels.getD i 0 = -1) ∧
      (∀ i c, (i, c) ∈ linear_sum_assignment (sanitizedCostQ a) →
        res.assigned_gt_inds.getD i (-1) = (c : ℤ) + 1 ∧
        res.labels.getD i 0 = a.gt_labels.getD c (-1)) ∧
      (a.with_velo = false →
        costMatrix a = matAdd (a.clsCostFn a.cls_pred a.gt_labels)
          (a.regCostFn
            ((scaleRows a.code_weights a.bbox_pred).map fun r => r.take 8)
            ((scaleRows a.code_weights
              (a.normalize_bbox a.gt_bboxes)).map fun r => r.take 8))) := by
  have hsound := allMatchings_sound (lsa_mem (sanitizedCostQ a))
  refine ⟨_, assign_main a hign hscipy hg hb, rfl, ?_, ?_, rfl, ?_, ?_, ?_⟩
  · rw [foldl_set_length]
    exact List.length_replicate _ _
  · rw [foldl_set_length]
    exact List.length_replicate _ _
  · intro i hi hnot
    constructor
    · rw [foldl_set_getD_of_not_mem hnot, getD_replicate hi]
    · rw [foldl_set_getD_of_not_mem hnot, getD_replicate hi]
  · intro i c hmem
    have hilt : i < a.bbox_pred.length := by
      have := (hsound.2.2.2 (i, c) hmem).1
      omega
    constructor
    · rw [foldl_set_getD_of_mem hsound.2.1 hmem
        (by rw [List.length_replicate]; exact hilt)]
    · rw [foldl_set_getD_of_mem hsound.2.1 hmem
        (by rw [List.length_replicate]; exact hilt)]
  · intro hvelo
    unfold costMatrix
    rw [hvelo]
    simp only [Bool.false_eq_true, if_false]

theorem getD_replicate_cases (n i : ℕ) (x d : ℤ) :
    (List.replicate n x).getD i d = x ∨ (List.replicate n x).getD i d = d := by
  rw [List.getD_eq_getElem?_getD, List.getElem?_replicate]
  split
  · left; rfl
  · right; rfl

/-- C4: in every `AssignResult` returned by `HungarianAssigner3D.assign`,
the foreground entries of `assigned_gt_inds` (values >= 1) are pairwise
distinct, i.e. each ground-truth index is assigned to at most one
prediction. -/
theorem C4_unique_matched_indices (a : AssignIn)
    (hign : a.gt_bboxes_ignore = none) (hscipy : a.scipyAvailable = true)
    (hrows : (sanitizedCostQ a).length = a.bbox_pred.length) :
    ∃ res : AssignResult, assign a = .ok res ∧
      ∀ i j : ℕ, i ≠ j →
        1 ≤ res.assigned_gt_inds.getD i 0 →
        1 ≤ res.assigned_gt_inds.getD j 0 →
        res.assigned_gt_inds.getD i 0 ≠ res.assigned_gt_inds.getD j 0 := by
  by_cases hdeg : a.gt_bboxes.length = 0 ∨ a.bbox_pred.length = 0
  · refine
      ⟨{ num_gts := a.gt_bboxes.length,
         assigned_gt_inds :=
           if a.gt_bboxes.length = 0 then List.replicate a.bbox_pred.length 0
           else List.replicate a.bbox_pred.length (-1),
         max_overlaps := none,
         labels := List.replicate a.bbox_pred.length (-1) }, ?_, ?_⟩
    · unfold assign
      rw [hign]
      simp only [Option.isSome_none, Bool.false_eq_true, if_false]
      rw [if_pos hdeg]
    · intro i j hij hi hj
      exfalso
      simp only at hi
      split at hi
      · rw [getD_replicate_zero] at hi
        omega
      · rcases getD_replicate_cases a.bbox_pred.length i (-1) 0 with h | h <;>
          · rw [h] at hi
            omega
  · push_neg at hdeg
    have hg : 0 < a.gt_bboxes.length := Nat.pos_of_ne_zero hdeg.1
    have hb : 0 < a.bbox_pred.length := Nat.pos_of_ne_zero hdeg.2
    have hsound := allMatchings_sound (lsa_mem (sanitizedCostQ a))
    refine ⟨_, assign_main a hign hscipy hg hb, ?_⟩
    intro i j hij hi hj
    simp only at hi hj ⊢
    have hval : ∀ t : ℕ,
        1 ≤ ((linear_sum_assignment (sanitizedCostQ a)).foldl
          (fun l rc => l.set rc.1 ((rc.2 : ℤ) + 1))
          (List.replicate a.bbox_pred.length 0)).getD t 0 →
        ∃ c : ℕ, (t, c) ∈ linear_sum_assignment (sanitizedCostQ a) ∧
          ((linear_sum_assignment (sanitizedCostQ a)).foldl
            (fun l rc => l.set rc.1 ((rc.2 : ℤ) + 1))
            (List.replicate a.bbox_pred.length 0)).getD t 0 = (c : ℤ) + 1 := by
      intro t ht
      by_cases htm : t ∈ (linear_sum_assignment (sanitizedCostQ a)).map Prod.fst
      · obtain ⟨rc, hrc, hrceq⟩ := List.mem_map.mp htm
        have hrcpair : (t, rc.2) ∈ linear_sum_assignment (sanitizedCostQ a) := by
          have : rc = (t, rc.2) := by
            cases rc
            simp only at hrceq
            simp [hrceq]
          rwa [this] at hrc
        have htlt : t < a.bbox_pred.length := by
          have := (hsound.2.2.2 (t, rc.2) hrcpair).1
          omega
        exact ⟨rc.2, hrcpair, foldl_set_getD_of_mem hsound.2.1 hrcpair
          (by rw [List.length_replicate]; exact htlt)⟩
      · exfalso
        rw [foldl_set_getD_of_not_mem htm, getD_replicate_zero] at ht
        omega
    obtain ⟨ci, hci, hieq⟩ := hval i hi
    obtain ⟨cj, hcj, hjeq⟩ := hval j hj
    rw [hieq, hjeq]
    intro hcc
    have hcij : ci = cj := by omega
    rw [hcij] at hci
    have := List.inj_on_of_nodup_map hsound.2.2.1 hci hcj rfl
    exact hij (congrArg Prod.fst this)

/-- C6: `assign` fails with the gt_bboxes_ignore input-validation assertion
(lines 48-50) exactly when `gt_bboxes_ignore` is not None; when it is None
the validation passes and (scipy being importable) `assign` produces an
`AssignResult`. -/
theorem C6_gt_bboxes_ignore_assertion (a : AssignIn) :
    (assign a = .error .gtBboxesIgnoreUnsupported ↔
      a.gt_bboxes_ignore ≠ none) ∧
    (a.gt_bboxes_ignore = none → a.scipyAvailable = true →
      ∃ res : AssignResult, assign a = .ok res) := by
  constructor
  · constructor
    · intro h hnone
      unfold assign at h
      rw [hnone] at h
      simp only [Option.isSome_none, Bool.false_eq_true, if_false] at h
      split at h
      · simp at h
      · split at h
        · simp at h
        · simp at h
    · intro hne
      unfold assign
      rw [if_pos (Option.isSome_iff_ne_none.mpr hne)]
  · intro hnone hscipy
    by_cases hdeg : a.gt_bboxes.length = 0 ∨ a.bbox_pred.length = 0
    · refine
        ⟨{ num_gts := a.gt_bboxes.length,
           assigned_gt_inds :=
             if a.gt_bboxes.length = 0 then List.replicate a.bbox_pred.length 0
             else List.replicate a.bbox_pred.length (-1),
           max_overlaps := none,
           labels := List.replicate a.bbox_pred.length (-1) }, ?_⟩
      unfold assign
      rw [hnone]
      simp only [Option.isSome_none, Bool.false_eq_true, if_false]
      rw [if_pos hdeg]
    · push_neg at hdeg
      exact ⟨_, assign_main a hnone hscipy (Nat.pos_of_ne_zero hdeg.1)
        (Nat.pos_of_ne_zero hdeg.2)⟩

/-- C8: empty-input behaviour of `assign` is asymmetric: with no ground
truth every prediction is assigned background 0 with label -1, while with
ground truth but no predictions the returned index and label tensors are
empty; in both cases `max_overlaps` is None and no cost computation or
matching happens (the result does not depend on the cost callables nor on
scipy being importable). -/
theorem C8_empty_input_asymmetry (a : AssignIn)
    (hign : a.gt_bboxes_ignore = none) :
    (a.gt_bboxes.length = 0 →
      assign a = .ok
        { num_gts := 0
          assigned_gt_inds := List.replicate a.bbox_pred.length 0
          max_overlaps := none
          labels := List.replicate a.bbox_pred.length (-1) }) ∧
    (0 < a.gt_bboxes.length → a.bbox_pred.length = 0 →
      assign a = .ok
        { num_gts := a.gt_bboxes.length
          assigned_gt_inds := []
          max_overlaps := none
          labels := [] }) := by
  constructor
  · intro h0
    unfold assign
    rw [hign]
    simp only [Option.isSome_none, Bool.false_eq_true, if_false]
    rw [if_pos (Or.inl h0), if_pos h0, h0]
  · intro hg h0
    unfold assign
    rw [hign]
    simp only [Option.isSome_none, Bool.false_eq_true, if_false]
    rw [if_pos (Or.inr h0), if_neg (by omega), h0]
    simp

/-- C10: before `linear_sum_assignment` is called, every NaN entry of the
cost matrix is replaced by 100.0, every +inf by 100.0 and every -inf by
-100.0, so the matcher always receives finite values; and when scipy's
`linear_sum_assignment` is unavailable an ImportError is raised instead of
matching. -/
theorem C10_cost_sanitization (a : AssignIn) :
    nan_to_num .nan = .finite 100 ∧
    nan_to_num .posinf = .finite 100 ∧
    nan_to_num .neginf = .finite (-100) ∧
    (∀ q : ℚ, nan_to_num (.finite q) = .finite q) ∧
    (∀ v : FloatVal, (nan_to_num v).isFinite = true) ∧
    sanitizedCost a = (costMatrix a).map (fun row => row.map nan_to_num) ∧
    (∀ row ∈ sanitizedCost a, ∀ v ∈ row, v.isFinite = true) ∧
    (a.gt_bboxes_ignore = none → a.scipyAvailable = false →
      0 < a.gt_bboxes.length → 0 < a.bbox_pred.length →
      assign a = .error .scipyMissing) := by
  refine ⟨rfl, rfl, rfl, fun q => rfl, ?_, rfl, ?_, ?_⟩
  · intro v
    cases v <;> rfl
  · intro row hrow v hv
    unfold sanitizedCost at hrow
    obtain ⟨row0, hrow0, rfl⟩ := List.mem_map.mp hrow
    obtain ⟨v0, hv0, rfl⟩ := List.mem_map.mp hv
    cases v0 <;> rfl
  · intro hnone hscipy hg hb
    unfold assign
    rw [hnone, hscipy]
    simp only [Option.isSome_none, Bool.false_eq_true, if_false]
    rw [if_neg (by omega)]

/-- Concrete assigner input for the witnesses: 2 predictions, 2 ground
truths, and a raw cost matrix containing a NaN and a +inf entry. -/
def exAssignIn : AssignIn where
  clsCostFn := fun _ _ => [[.finite 1, .finite 2], [.finite 3, .finite 0]]
  regCostFn := fun _ _ => [[.finite 0, .nan], [.posinf, .finite 1]]
  normalize_bbox := fun x => x
  scipyAvailable := true
  bbox_pred := [[1, 0], [0, 1]]
  cls_pred := [[0], [0]]
  gt_bboxes := [[0, 0], [1, 1]]
  gt_labels := [5, 7]
  gt_bboxes_ignore := none
  code_weights := none
  with_velo := false

/-- Witness input with no ground-truth boxes. -/
def exAssignNoGt : AssignIn := { exAssignIn with gt_bboxes := [] }

/-- Witness input with no predicted boxes. -/
def exAssignNoPred : AssignIn := { exAssignIn with bbox_pred := [] }

/-- Witness input where scipy is not importable. -/
def exAssignNoScipy : AssignIn := { exAssignIn with scipyAvailable := false }

theorem C1_witness :
    (linear_sum_assignment (sanitizedCostQ exAssignIn)).length =
      min exAssignIn.bbox_pred.length exAssignIn.gt_bboxes.length :=
  (C1_hungarian_matching_optimal exAssignIn (by decide) (by decide)
    (by decide) (by decide)).1

theorem C2_witness :
    ∃ res : AssignResult, assign exAssignIn = .ok res ∧
      res.num_gts = exAssignIn.gt_bboxes.length ∧
      res.assigned_gt_inds.length = exAssignIn.bbox_pred.length ∧
      res.labels.length = exAssignIn.bbox_pred.length ∧
      res.max_overlaps = none ∧
      (∀ i, i < exAssignIn.bbox_pred.length →
        i ∉ (linear_sum_assignment (sanitizedCostQ exAssignIn)).map Prod.fst →
        res.assigned_gt_inds.getD i (-1) = 0 ∧ res.labels.getD i 0 = -1) ∧
      (∀ i c, (i, c) ∈ linear_sum_assignment (sanitizedCostQ exAssignIn) →
        res.assigned_gt_inds.getD i (-1) = (c : ℤ) + 1 ∧
        res.labels.getD i 0 = exAssignIn.gt_labels.getD c (-1)) ∧
      (exAssignIn.with_velo = false →
        costMatrix exAssignIn =
          matAdd (exAssignIn.clsCostFn exAssignIn.cls_pred exAssignIn.gt_labels)
            (exAssignIn.regCostFn
              ((scaleRows exAssignIn.code_weights
                exAssignIn.bbox_pred).map fun r => r.take 8)
              ((scaleRows exAssignIn.code_weights
                (exAssignIn.normalize_bbox
                  exAssignIn.gt_bboxes)).map fun r => r.take 8))) :=
  C2_assign_result_structure exAssignIn rfl rfl (by decide) (by decide)
    (by decide)

theorem C4_witness :
    ∃ res : AssignResult, assign exAssignIn = .ok res ∧
      ∀ i j : ℕ, i ≠ j →
        1 ≤ res.assigned_gt_inds.getD i 0 →
        1 ≤ res.assigned_gt_inds.getD j 0 →
        res.assigned_gt_inds.getD i 0 ≠ res.assigned_gt_inds.getD j 0 :=
  C4_unique_matched_indices exAssignIn rfl rfl (by decide)

theorem C6_witness :
    (assign exAssignIn = .error .gtBboxesIgnoreUnsupported ↔
      exAssignIn.gt_bboxes_ignore ≠ none) ∧
    (exAssignIn.gt_bboxes_ignore = none → exAssignIn.scipyAvailable = true →
      ∃ res : AssignResult, assign exAssignIn = .ok res) :=
  C6_gt_bboxes_ignore_assertion exAssignIn

theorem C8_witness :
    assign exAssignNoGt = .ok
      { num_gts := 0,
        assigned_gt_inds := List.replicate exAssignNoGt.bbox_pred.length 0,
        max_overlaps := none,
        labels := List.replicate exAssignNoGt.bbox_pred.length (-1) } ∧
    assign exAssignNoPred = .ok
      { num_gts := exAssignNoPred.gt_bboxes.length,
        assigned_gt_inds := [],
        max_overlaps := none,
        labels := [] } :=
  ⟨(C8_empty_input_asymmetry exAssignNoGt rfl).1 rfl,
   (C8_empty_input_asymmetry exAssignNoPred rfl).2 (by decide) rfl⟩

theorem C10_witness :
    assign exAssignNoScipy = .error .scipyMissing :=
  (C10_cost_sanitization exAssignNoScipy).2.2.2.2.2.2.2 rfl rfl
    (by decide) (by decide)

/-! ### NMSFreeCoder.decode_single
(projects/mmdet3d_plugin/core/bbox/coders/nms_free_coder.py, lines 21-90).
The sigmoid kernel and the out-of-tree `denormalize_bbox` helper are opaque
at the call site and enter the embedding as function parameters. -/

/-- Configuration held by `NMSFreeCoder.__init__` (lines 21-36). -/
structure NMSFreeCoder where
  pc_range : List ℚ
  voxel_size : Option (List ℚ)
  post_center_range : Option (List ℚ)
  max_num : ℕ
  score_threshold : Option ℚ
  num_classes : ℕ

/-- The NotImplementedError raised at lines 86-89 when `post_center_range`
is None. -/
inductive DecodeError where
  | notImplemented : DecodeError
deriving DecidableEq, Repr

/-- The prediction dict built at line 83: keys bboxes, scores, labels. -/
structure Predictions where
  bboxes : List (List ℚ)
  scores : List ℚ
  labels : List ℕ
deriving DecidableEq, Repr

/-- Ordering used by `topk`: a pair (flat index, value) precedes another
when its value is at least as large. -/
def valGe (a b : ℕ × ℚ) : Prop := b.2 ≤ a.2

instance : DecidableRel valGe := fun a b =>
  inferInstanceAs (Decidable (b.2 ≤ a.2))

instance : IsTotal (ℕ × ℚ) valGe := ⟨fun a b => le_total b.2 a.2⟩

instance : IsTrans (ℕ × ℚ) valGe := ⟨fun _ _ _ h1 h2 => le_trans h2 h1⟩

/-- `cls_scores.sigmoid().view(-1)` (lines 55-56): elementwise sigmoid
followed by a row-major flatten. -/
def flatScores (sigmoidFn : ℚ → ℚ) (cls_scores : List (List ℚ)) : List ℚ :=
  (cls_scores.map fun row => row.map sigmoidFn).flatten

/-- `torch.topk` on a flat score list (line 57): the `k` largest entries,
with their flat indices, in order of decreasing value. -/
def topkPairs (l : List ℚ) (k : ℕ) : List (ℕ × ℚ) :=
  (List.insertionSort valGe l.enum).take k

/-- The flat indices selected by topk inside `decode_single` with
`max_num = min (num_query * cls_out_channels) self.max_num` (line 56). -/
def selIndexes (sigmoidFn : ℚ → ℚ) (coder : NMSFreeCoder)
    (cls_scores : List (List ℚ)) : List ℕ :=
  (topkPairs (flatScores sigmoidFn cls_scores)
    (min (flatScores sigmoidFn cls_scores).length coder.max_num)).map Prod.fst

/-- The scores selected by topk inside `decode_single` (line 57). -/
def selScores (sigmoidFn : ℚ → ℚ) (coder : NMSFreeCoder)
    (cls_scores : List (List ℚ)) : List ℚ :=
  (topkPairs (flatScores sigmoidFn cls_scores)
    (min (flatScores sigmoidFn cls_scores).length coder.max_num)).map Prod.snd

/-- `labels = indexs % self.num_classes` (line 58). -/
def decodedLabels (sigmoidFn : ℚ → ℚ) (coder : NMSFreeCoder)
    (cls_scores : List (List ℚ)) : List ℕ :=
  (selIndexes sigmoidFn coder cls_scores).map fun i => i % coder.num_classes

/-- `bbox_index = indexs // self.num_classes` (line 59). -/
def bboxIndexes (sigmoidFn : ℚ → ℚ) (coder : NMSFreeCoder)
    (cls_scores : List (List ℚ)) : List ℕ :=
  (selIndexes sigmoidFn coder cls_scores).map fun i => i / coder.num_classes

/-- The center-range mask of lines 74-75: the first three (center)
coordinates lie within `[post_center_range[:3], post_center_range[3:]]`. -/
def centerOk (pcr : List ℚ) (b : List ℚ) : Bool :=
  (List.range 3).all fun j =>
    decide (pcr.getD j 0 ≤ b.getD j 0 ∧ b.getD j 0 ≤ pcr.getD (3 + j) 0)

/-- The score-threshold mask of lines 67-68 and 77-78.
`if self.score_threshold:` at line 77 is Python truthiness, so the mask is
applied only when the threshold is neither None nor 0.0. -/
def threshOk (score_threshold : Option ℚ) (sc : ℚ) : Bool :=
  match score_threshold with
  | some t => if t = 0 then true else decide (t ≤ sc)
  | none => true

/-- The (box, score, label) triples surviving the joint mask of lines
74-82, with boxes gathered by `bbox_index` and denormalized (lines 60-62). -/
def keptTriples (sigmoidFn : ℚ → ℚ) (denormalize_bbox : List ℚ → List ℚ)
    (coder : NMSFreeCoder) (cls_scores bbox_preds : List (List ℚ))
    (pcr : List ℚ) : List (List ℚ × ℚ × ℕ) :=
  ((((bboxIndexes sigmoidFn coder cls_scores).map
      fun i => bbox_preds.getD i []).map denormalize_bbox).zip
    ((selScores sigmoidFn coder cls_scores).zip
      (decodedLabels sigmoidFn coder cls_scores))).filter
    fun bsl => centerOk pcr bsl.1 && threshOk coder.score_threshold bsl.2.1

/-- `NMSFreeCoder.decode_single` (lines 41-90). -/
def decode_single (sigmoidFn : ℚ → ℚ) (denormalize_bbox : List ℚ → List ℚ)
    (coder : NMSFreeCoder) (cls_scores bbox_preds : List (List ℚ)) :
    Except DecodeError Predictions :=
  match coder.post_center_range with
  | some pcr =>
    let kept := keptTriples sigmoidFn denormalize_bbox coder cls_scores
      bbox_preds pcr
    .ok { bboxes := kept.map fun bsl => bsl.1,
          scores := kept.map fun bsl => bsl.2.1,
          labels := kept.map fun bsl => bsl.2.2 }
  | none => .error .notImplemented

/-- Unfolding of `decode_single` when `post_center_range` is set. -/
theorem decode_single_some (sigmoidFn : ℚ → ℚ)
    (denormalize_bbox : List ℚ → List ℚ) (coder : NMSFreeCoder)
    (cls_scores bbox_preds : List (List ℚ)) (pcr : List ℚ)
    (hp : coder.post_center_range = some pcr) :
    decode_single sigmoidFn denormalize_bbox coder cls_scores bbox_preds =
      .ok { bboxes := (keptTriples sigmoidFn denormalize_bbox coder
              cls_scores bbox_preds pcr).map fun bsl => bsl.1,
            scores := (keptTriples sigmoidFn denormalize_bbox coder
              cls_scores bbox_preds pcr).map fun bsl => bsl.2.1,
            labels := (keptTriples sigmoidFn denormalize_bbox coder
              cls_scores bbox_preds pcr).map fun bsl => bsl.2.2 } := by
  unfold decode_single
  rw [hp]

theorem flatScores_length {sigmoidFn : ℚ → ℚ} {cs : List (List ℚ)} {C : ℕ}
    (h : ∀ row ∈ cs, row.length = C) :
    (flatScores sigmoidFn cs).length = cs.length * C := by
  induction cs with
  | nil => simp [flatScores]
  | cons r rs ih =>
    have hr : r.length = C := h r (List.mem_cons_self _ _)
    have ht := ih (fun x hx => h x (List.mem_cons_of_mem _ hx))
    simp only [flatScores, List.map_cons, List.flatten_cons, List.length_append,
      List.length_map, List.length_cons] at ht ⊢
    rw [hr, ht]
    ring

theorem mem_flatScores {sigmoidFn : ℚ → ℚ} {cs : List (List ℚ)} {v : ℚ}
    (h : v ∈ flatScores sigmoidFn cs) : ∃ x, v = sigmoidFn x := by
  unfold flatScores at h
  rw [List.mem_flatten] at h
  obtain ⟨row, hrow, hv⟩ := h
  obtain ⟨row0, hrow0, rfl⟩ := List.mem_map.mp hrow
  obtain ⟨x, hx, rfl⟩ := List.mem_map.mp hv
  exact ⟨x, rfl⟩

theorem topkPairs_length_le (l : List ℚ) (k : ℕ) :
    (topkPairs l k).length ≤ k := by
  unfold topkPairs
  rw [List.length_take]
  exact min_le_left _ _

theorem mem_topkPairs_mem_enum {l : List ℚ} {k : ℕ} {xp : ℕ × ℚ}
    (h : xp ∈ topkPairs l k) : xp ∈ l.enum := by
  unfold topkPairs at h
  exact (List.perm_insertionSort valGe _).mem_iff.mp (List.mem_of_mem_take h)

theorem mem_topkPairs_snd_mem {l : List ℚ} {k : ℕ} {xp : ℕ × ℚ}
    (h : xp ∈ topkPairs l k) : xp.2 ∈ l := by
  have h2 := List.mem_map_of_mem Prod.snd (mem_topkPairs_mem_enum h)
  rwa [List.enum_map_snd] at h2

theorem topk_selected_ge_dropped (l : List ℚ) (k : ℕ) :
    ∀ x ∈ topkPairs l k,
      ∀ y ∈ (List.insertionSort valGe l.enum).drop k, y.2 ≤ x.2 := by
  have hs := List.sorted_insertionSort valGe l.enum
  rw [← List.take_append_drop k (List.insertionSort valGe l.enum)] at hs
  have hp := (List.pairwise_append.mp hs).2.2
  intro x hx y hy
  exact hp x hx y hy

theorem selScores_mem_flat {sigmoidFn : ℚ → ℚ} {coder : NMSFreeCoder}
    {cs : List (List ℚ)} {sc : ℚ} (h : sc ∈ selScores sigmoidFn coder cs) :
    sc ∈ flatScores sigmoidFn cs := by
  unfold selScores at h
  obtain ⟨xp, hxp, rfl⟩ := List.mem_map.mp h
  exact mem_topkPairs_snd_mem hxp

/-- C3: with `post_center_range` set, `decode_single` returns at most
`max_num` boxes; its scores are drawn from the
`min (num_query * cls_out_channels) max_num` largest sigmoid scores over the
flattened classification output (every selected score >= every non-selected
score); every returned box has its three center coordinates within
`[post_center_range[:3], post_center_range[3:]]`; and when
`score_threshold` is not None every returned score is >= the threshold. -/
theorem C3_decode_single_topk (sigmoidFn : ℚ → ℚ)
    (denormalize_bbox : List ℚ → List ℚ) (coder : NMSFreeCoder)
    (cls_scores bbox_preds : List (List ℚ)) (pcr : List ℚ) (C : ℕ)
    (hp : coder.post_center_range = some pcr)
    (hsig : ∀ x, 0 < sigmoidFn x)
    (hrect : ∀ row ∈ cls_scores, row.length = C) :
    ∃ p : Predictions,
      decode_single sigmoidFn denormalize_bbox coder cls_scores bbox_preds =
        .ok p ∧
      p.bboxes.length ≤ coder.max_num ∧
      p.scores.length ≤ coder.max_num ∧
      p.labels.length ≤ coder.max_num ∧
      (∀ sc ∈ p.scores,
        sc ∈ (topkPairs (flatScores sigmoidFn cls_scores)
          (min (cls_scores.length * C) coder.max_num)).map Prod.snd) ∧
      (∀ v ∈ (topkPairs (flatScores sigmoidFn cls_scores)
          (min (cls_scores.length * C) coder.max_num)).map Prod.snd,
        ∀ u ∈ ((List.insertionSort valGe
            (flatScores sigmoidFn cls_scores).enum).drop
          (min (cls_scores.length * C) coder.max_num)).map Prod.snd, u ≤ v) ∧
      (∀ b ∈ p.bboxes, ∀ j, j < 3 →
        pcr.getD j 0 ≤ b.getD j 0 ∧ b.getD j 0 ≤ pcr.getD (3 + j) 0) ∧
      (∀ t, coder.score_threshold = some t → ∀ sc ∈ p.scores, t ≤ sc) := by
  have hflat : (flatScores sigmoidFn cls_scores).length = cls_scores.length * C :=
    flatScores_length hrect
  have hk : min (cls_scores.length * C) coder.max_num =
      min (flatScores sigmoidFn cls_scores).length coder.max_num := by
    rw [hflat]
  refine ⟨_, decode_single_some sigmoidFn denormalize_bbox coder cls_scores
    bbox_preds pcr hp, ?_, ?_, ?_, ?_, ?_, ?_, ?_⟩
  · simp only [List.length_map]
    calc (keptTriples sigmoidFn denormalize_bbox coder cls_scores
          bbox_preds pcr).length
        ≤ _ := List.length_filter_le _ _
      _ ≤ coder.max_num := by
          rw [List.length_zip, List.length_zip]
          have h1 := topkPairs_length_le (flatScores sigmoidFn cls_scores)
            (min (flatScores sigmoidFn cls_scores).length coder.max_num)
          have h2 : (selScores sigmoidFn coder cls_scores).length ≤ coder.max_num := by
            unfold selScores
            rw [List.length_map]
            exact le_trans h1 (min_le_right _ _)
          simp only [le_min_iff, min_le_iff] at *
          omega
  · simp only [List.length_map]
    calc (keptTriples sigmoidFn denormalize_bbox coder cls_scores
          bbox_preds pcr).length
        ≤ _ := List.length_filter_le _ _
      _ ≤ coder.max_num := by
          rw [List.length_zip, List.length_zip]
          have h1 := topkPairs_length_le (flatScores sigmoidFn cls_scores)
            (min (flatScores sigmoidFn cls_scores).length coder.max_num)
          have h2 : (selScores sigmoidFn coder cls_scores).length ≤ coder.max_num := by
            unfold selScores
            rw [List.length_map]
            exact le_trans h1 (min_le_right _ _)
          simp only [le_min_iff, min_le_iff] at *
          omega
  · simp only [List.length_map]
    calc (keptTriples sigmoidFn denormalize_bbox coder cls_scores
          bbox_preds pcr).length
        ≤ _ := List.length_filter_le _ _
      _ ≤ coder.max_num := by
          rw [List.length_zip, List.length_zip]
          have h1 := topkPairs_length_le (flatScores sigmoidFn cls_scores)
            (min (flatScores sigmoidFn cls_scores).length coder.max_num)
          have h2 : (selScores sigmoidFn coder cls_scores).length ≤ coder.max_num := by
            unfold selScores
            rw [List.length_map]
            exact le_trans h1 (min_le_right _ _)
          simp only [le_min_iff, min_le_iff] at *
          omega
  · intro sc hsc
    rw [hk]
    simp only [List.map_map] at hsc
    obtain ⟨bsl, hbsl, rfl⟩ := List.mem_map.mp hsc
    have hzip := List.mem_of_mem_filter hbsl
    have hmem2 := (List.of_mem_zip hzip).2
    obtain ⟨b0, s0, l0⟩ := bsl
    have hs0 : (s0, l0).1 ∈ selScores sigmoidFn coder cls_scores :=
      (List.of_mem_zip hmem2).1
    unfold selScores at hs0
    exact hs0
  · intro v hv u hu
    rw [hk] at hv hu
    obtain ⟨xp, hxp, rfl⟩ := List.mem_map.mp hv
    obtain ⟨yp, hyp, rfl⟩ := List.mem_map.mp hu
    exact topk_selected_ge_dropped _ _ xp hxp yp hyp
  · intro b hb j hj
    obtain ⟨bsl, hbsl, rfl⟩ := List.mem_map.mp hb
    have hpred := (List.mem_filter.mp hbsl).2
    rw [Bool.and_eq_true] at hpred
    have hcenter := hpred.1
    unfold centerOk at hcenter
    rw [List.all_eq_true] at hcenter
    exact of_decide_eq_true (hcenter j (List.mem_range.mpr hj))
  · intro t ht sc hsc
    obtain ⟨bsl, hbsl, rfl⟩ := List.mem_map.mp hsc
    have hpred := (List.mem_filter.mp hbsl).2
    rw [Bool.and_eq_true] at hpred
    have hthr := hpred.2
    unfold threshOk at hthr
    rw [ht] at hthr
    by_cases ht0 : t = 0
    · have hzip := List.mem_of_mem_filter hbsl
      have hmem2 := (List.of_mem_zip hzip).2
      have hs0 : bsl.2.1 ∈ selScores sigmoidFn coder cls_scores :=
        (List.of_mem_zip hmem2).1
      obtain ⟨x, hx⟩ := mem_flatScores (selScores_mem_flat hs0)
      rw [ht0, hx]
      exact le_of_lt (hsig x)
    · have hthr2 : (if t = 0 then true else decide (t ≤ bsl.2.1)) = true := hthr
      rw [if_neg ht0] at hthr2
      exact of_decide_eq_true hthr2

/-- C7: `decode_single` raises NotImplementedError exactly when
`post_center_range` is None; when it is set, it returns a dict with keys
bboxes, scores and labels. -/
theorem C7_decode_single_not_implemented (sigmoidFn : ℚ → ℚ)
    (denormalize_bbox : List ℚ → List ℚ) (coder : NMSFreeCoder)
    (cls_scores bbox_preds : List (List ℚ)) :
    (decode_single sigmoidFn denormalize_bbox coder cls_scores bbox_preds =
        .error .notImplemented ↔ coder.post_center_range = none) ∧
    (∀ pcr, coder.post_center_range = some pcr →
      ∃ p : Predictions,
        decode_single sigmoidFn denormalize_bbox coder cls_scores bbox_preds =
          .ok p) := by
  constructor
  · constructor
    · intro h
      rcases hp : coder.post_center_range with _ | pcr
      · rfl
      · rw [decode_single_some sigmoidFn denormalize_bbox coder cls_scores
          bbox_preds pcr hp] at h
        simp at h
    · intro h
      unfold decode_single
      rw [h]
  · intro pcr hp
    exact ⟨_, decode_single_some sigmoidFn denormalize_bbox coder cls_scores
      bbox_preds pcr hp⟩

/-- C9: each selected flattened top-k index decomposes as
label = index mod num_classes and bbox_index = index div num_classes, so
bbox_index * num_classes + label recomposes the index exactly, and every
returned label lies in `[0, num_classes)`. -/
theorem C9_index_decomposition (sigmoidFn : ℚ → ℚ)
    (denormalize_bbox : List ℚ → List ℚ) (coder : NMSFreeCoder)
    (cls_scores bbox_preds : List (List ℚ))
    (hnc : 0 < coder.num_classes) :
    (∀ i ∈ selIndexes sigmoidFn coder cls_scores,
      (i / coder.num_classes) * coder.num_classes + i % coder.num_classes = i ∧
      i % coder.num_classes < coder.num_classes) ∧
    decodedLabels sigmoidFn coder cls_scores =
      (selIndexes sigmoidFn coder cls_scores).map
        (fun i => i % coder.num_classes) ∧
    bboxIndexes sigmoidFn coder cls_scores =
      (selIndexes sigmoidFn coder cls_scores).map
        (fun i => i / coder.num_classes) ∧
    (∀ p : Predictions, ∀ pcr : List ℚ, coder.post_center_range = some pcr →
      decode_single sigmoidFn denormalize_bbox coder cls_scores bbox_preds =
        .ok p →
      ∀ l ∈ p.labels, l < coder.num_classes) := by
  refine ⟨?_, rfl, rfl, ?_⟩
  · intro i hi
    constructor
    · rw [Nat.mul_comm]
      exact Nat.div_add_mod i coder.num_classes
    · exact Nat.mod_lt i hnc
  · intro p pcr hp hok
    rw [decode_single_some sigmoidFn denormalize_bbox coder cls_scores
      bbox_preds pcr hp] at hok
    have hpe := Except.ok.inj hok
    intro l hl
    rw [← hpe] at hl
    simp only at hl
    obtain ⟨bsl, hbsl, rfl⟩ := List.mem_map.mp hl
    have hzip := List.mem_of_mem_filter hbsl
    have hmem2 := (List.of_mem_zip hzip).2
    have hl0 : bsl.2.2 ∈ decodedLabels sigmoidFn coder cls_scores :=
      (List.of_mem_zip (by
        have : (bsl.2.1, bsl.2.2) ∈
            (selScores sigmoidFn coder cls_scores).zip
              (decodedLabels sigmoidFn coder cls_scores) := hmem2
        exact this)).2
    unfold decodedLabels at hl0
    obtain ⟨i, hi, heq⟩ := List.mem_map.mp hl0
    rw [← heq]
    exact Nat.mod_lt i hnc

/-- Concrete coder configuration for the witnesses. -/
def exCoder : NMSFreeCoder where
  pc_range := [-51, -51, -5, 51, 51, 3]
  voxel_size := none
  post_center_range := some [-61, -61, -10, 61, 61, 10]
  max_num := 3
  score_threshold := some (1/4)
  num_classes := 2

/-- Concrete stand-in for the (strictly positive) sigmoid kernel. -/
def exSigmoid : ℚ → ℚ := fun x => if 0 ≤ x then 1 else 1/2

theorem exSigmoid_pos : ∀ x, 0 < exSigmoid x := by
  intro x
  unfold exSigmoid
  split <;> norm_num

/-- Concrete classification scores, 2 queries x 2 classes. -/
def exClsScores : List (List ℚ) := [[1, -1], [2, 0]]

/-- Concrete box predictions. -/
def exBboxPreds : List (List ℚ) := [[1, 2, 3, 4], [5, 6, 7, 8]]

theorem C3_witness :
    ∃ p : Predictions,
      decode_single exSigmoid (fun b => b) exCoder exClsScores exBboxPreds =
        .ok p ∧
      p.bboxes.length ≤ exCoder.max_num ∧
      p.scores.length ≤ exCoder.max_num ∧
      p.labels.length ≤ exCoder.max_num ∧
      (∀ sc ∈ p.scores,
        sc ∈ (topkPairs (flatScores exSigmoid exClsScores)
          (min (exClsScores.length * 2) exCoder.max_num)).map Prod.snd) ∧
      (∀ v ∈ (topkPairs (flatScores exSigmoid exClsScores)
          (min (exClsScores.length * 2) exCoder.max_num)).map Prod.snd,
        ∀ u ∈ ((List.insertionSort valGe
            (flatScores exSigmoid exClsScores).enum).drop
          (min (exClsScores.length * 2) exCoder.max_num)).map Prod.snd,
          u ≤ v) ∧
      (∀ b ∈ p.bboxes, ∀ j, j < 3 →
        [(-61 : ℚ), -61, -10, 61, 61, 10].getD j 0 ≤ b.getD j 0 ∧
        b.getD j 0 ≤ [(-61 : ℚ), -61, -10, 61, 61, 10].getD (3 + j) 0) ∧
      (∀ t, exCoder.score_threshold = some t → ∀ sc ∈ p.scores, t ≤ sc) :=
  C3_decode_single_topk exSigmoid (fun b => b) exCoder exClsScores exBboxPreds
    [(-61 : ℚ), -61, -10, 61, 61, 10] 2 rfl exSigmoid_pos (by decide)

theorem C7_witness :
    (decode_single exSigmoid (fun b => b) exCoder exClsScores exBboxPreds =
        .error .notImplemented ↔ exCoder.post_center_range = none) ∧
    (∀ pcr, exCoder.post_center_range = some pcr →
      ∃ p : Predictions,
        decode_single exSigmoid (fun b => b) exCoder exClsScores exBboxPreds =
          .ok p) :=
  C7_decode_single_not_implemented exSigmoid (fun b => b) exCoder exClsScores
    exBboxPreds

theorem C9_witness :
    (∀ i ∈ selIndexes exSigmoid exCoder exClsScores,
      (i / exCoder.num_classes) * exCoder.num_classes +
        i % exCoder.num_classes = i ∧
      i % exCoder.num_classes < exCoder.num_classes) ∧
    decodedLabels exSigmoid exCoder exClsScores =
      (selIndexes exSigmoid exCoder exClsScores).map
        (fun i => i % exCoder.num_classes) ∧
    bboxIndexes exSigmoid exCoder exClsScores =
      (selIndexes exSigmoid exCoder exClsScores).map
        (fun i => i / exCoder.num_classes) ∧
    (∀ p : Predictions, ∀ pcr : List ℚ,
      exCoder.post_center_range = some pcr →
      decode_single exSigmoid (fun b => b) exCoder exClsScores exBboxPreds =
        .ok p →
      ∀ l ∈ p.labels, l < exCoder.num_classes) :=
  C9_index_decomposition exSigmoid (fun b => b) exCoder exClsScores
    exBboxPreds (by decide)

/-! ### MV2DFusionTransformerDecoder.forward
(projects/mmdet3d_plugin/models/utils/mv2dfusion_transformer.py,
lines 466-512).  Queries and query positions carry opaque element types Q
and P; the decoder layers, post-norm, probability branches, position
branches, softmax and log kernels are the opaque callables of the call
site.  The batch dimension is 1, so tensors indexed [B, num_queries, ...]
become per-query lists and the layout transposes are identities. -/

/-- Boolean-mask selection `x[dyn_q_mask]` on the query axis. -/
def maskedSelect {α : Type} : List Bool → List α → List α
  | true :: ms, b :: bs => b :: maskedSelect ms bs
  | false :: ms, _ :: bs => maskedSelect ms bs
  | _, _ => []

/-- Boolean-mask assignment `x[dyn_q_mask] = upd` on the query axis:
positions where the mask is true take successive entries of `upd`, all
other positions keep the base value. -/
def maskedScatter {α : Type} : List Bool → List α → List α → List α
  | _, [], _ => []
  | [], base, _ => base
  | true :: ms, _ :: bs, u :: us => u :: maskedScatter ms bs us
  | true :: ms, b :: bs, [] => b :: maskedScatter ms bs []
  | false :: ms, b :: bs, us => b :: maskedScatter ms bs us

/-- Elementwise sum of two rational vectors. -/
def addVec (v w : List ℚ) : List ℚ := v.zipWith (· + ·) w

/-- Scale a rational vector. -/
def scaleVec (c : ℚ) (v : List ℚ) : List ℚ := v.map fun x => c * x

/-- Sum of a list of vectors. -/
def sumVecs : List (List ℚ) → List ℚ
  | [] => []
  | [v] => v
  | v :: vs => addVec v (sumVecs vs)

/-- Row vector times matrix: `(probs[:, None] @ coords)[:, 0]` for one
dynamic query (line 494). -/
def vecMat (p : List ℚ) (m : List (List ℚ)) : List ℚ :=
  sumVecs ((p.zip m).map fun sc => scaleVec sc.1 sc.2)

/-- The opaque callables consumed by the decoder forward pass. -/
structure DecoderParams (Q P : Type) where
  layer : ℕ → List Q → List P → List (List ℚ) → List Q
  post_norm : Option (List Q → List Q)
  dyn_q_prob_branch : ℕ → List Q → List (List ℚ)
  softmaxFn : List ℚ → List ℚ
  logFn : ℚ → ℚ
  dyn_q_pos_branch : List (List ℚ) → P
  dyn_q_pos_with_prob_branch : P → List ℚ → P

/-- The per-layer refinement loop of lines 473-507, returning the stacked
intermediate queries, the refined reference-point lists (one per layer) and
the dynamic-query logits (one per layer).  `i` is the layer index. -/
def decoderLoop {Q P : Type} (pr : DecoderParams Q P) (mask : List Bool)
    (coords : List (List (List ℚ))) (i : ℕ) (query : List Q)
    (query_pos : List P) (ref : List (List ℚ)) (logits : List (List ℚ)) :
    ℕ → List (List Q) × List (List (List ℚ)) × List (List (List ℚ))
  | 0 => ([], [], [])
  | L + 1 =>
    let query1 := pr.layer i query query_pos ref
    let interm_q := match pr.post_norm with
      | some f => f query1
      | none => query1
    let res := pr.dyn_q_prob_branch i (maskedSelect mask query1)
    let logits1 := (logits.zip res).map fun lr => addVec lr.1 lr.2
    let probs := logits1.map pr.softmaxFn
    let dyn_q_ref := (probs.zip coords).map fun pc => vecMat pc.1 pc.2
    let ref1 := maskedScatter mask ref dyn_q_ref
    let dyn_q_pos := (coords.zip probs).map fun cp =>
      pr.dyn_q_pos_with_prob_branch (pr.dyn_q_pos_branch cp.1) cp.2
    let query_pos1 := maskedScatter mask query_pos dyn_q_pos
    let rest := decoderLoop pr mask coords (i + 1) query1 query_pos1 ref1
      logits1 L
    (interm_q :: rest.1, ref1 :: rest.2.1, logits1 :: rest.2.2)

/-- `MV2DFusionTransformerDecoder.forward` (lines 466-512): initial logits
are `dyn_q_probs.log()`, the loop runs over the `num_layers` layers, and
the returned reference-point stack is the initial `reference_points`
followed by the per-layer refinements (line 470 and 507). -/
def decoderForward {Q P : Type} (pr : DecoderParams Q P) (num_layers : ℕ)
    (query : List Q) (query_pos : List P) (reference_points : List (List ℚ))
    (dyn_q_coords : List (List (List ℚ))) (dyn_q_probs : List (List ℚ))
    (dyn_q_mask : List Bool) :
    List (List Q) × List (List (List ℚ)) × List (List (List ℚ)) :=
  let dyn_q_logits := dyn_q_probs.map fun row => row.map pr.logFn
  let out := decoderLoop pr dyn_q_mask dyn_q_coords 0 query query_pos
    reference_points dyn_q_logits num_layers
  (out.1, reference_points :: out.2.1, out.2.2)

theorem maskedScatter_getD_false {α : Type} (mask : List Bool)
    (base upd : List α) (j : ℕ) (d : α) (h : mask.getD j false = false) :
    (maskedScatter mask base upd).getD j d = base.getD j d := by
  induction mask generalizing base upd j with
  | nil =>
    cases base with
    | nil => rfl
    | cons b bs => rfl
  | cons m ms ih =>
    cases base with
    | nil => cases m <;> cases upd <;> rfl
    | cons b bs =>
      cases m with
      | true =>
        cases j with
        | zero => simp [List.getD_cons_zero] at h
        | succ j2 =>
          rw [List.getD_cons_succ] at h ⊢
          cases upd with
          | nil =>
            show (b :: maskedScatter ms bs []).getD (j2 + 1) d = bs.getD j2 d
            rw [List.getD_cons_succ]
            exact ih bs [] j2 h
          | cons u us =>
            show (u :: maskedScatter ms bs us).getD (j2 + 1) d = bs.getD j2 d
            rw [List.getD_cons_succ]
            exact ih bs us j2 h
      | false =>
        cases j with
        | zero =>
          show (b :: maskedScatter ms bs upd).getD 0 d = (b :: bs).getD 0 d
          rfl
        | succ j2 =>
          rw [List.getD_cons_succ] at h
          show (b :: maskedScatter ms bs upd).getD (j2 + 1) d = (b :: bs).getD (j2 + 1) d
          rw [List.getD_cons_succ, List.getD_cons_succ]
          exact ih bs upd j2 h

theorem decoderLoop_ref_length {Q P : Type} (pr : DecoderParams Q P)
    (mask : List Bool) (coords : List (List (List ℚ))) (L : ℕ) :
    ∀ (i : ℕ) (query : List Q) (query_pos : List P) (ref : List (List ℚ))
      (logits : List (List ℚ)),
      (decoderLoop pr mask coords i query query_pos ref logits L).2.1.length =
        L := by
  induction L with
  | zero => intro i q qp r lg; rfl
  | succ L ih =>
    intro i q qp r lg
    simp only [decoderLoop, List.length_cons]
    rw [ih]

theorem decoderLoop_ref_preserved {Q P : Type} (pr : DecoderParams Q P)
    (mask : List Bool) (coords : List (List (List ℚ)))
    (init : List (List ℚ)) (L : ℕ) :
    ∀ (i : ℕ) (query : List Q) (query_pos : List P) (ref : List (List ℚ))
      (logits : List (List ℚ)),
      (∀ j, mask.getD j false = false → ref.getD j [] = init.getD j []) →
      ∀ rp ∈ (decoderLoop pr mask coords i query query_pos ref logits L).2.1,
        ∀ j, mask.getD j false = false → rp.getD j [] = init.getD j [] := by
  induction L with
  | zero =>
    intro i q qp r lg hr rp hrp
    exact absurd hrp (List.not_mem_nil _)
  | succ L ih =>
    intro i q qp r lg hr rp hrp
    simp only [decoderLoop, List.mem_cons] at hrp
    rcases hrp with rfl | hrp
    · intro j hj
      rw [maskedScatter_getD_false mask r _ j [] hj]
      exact hr j hj
    · exact ih (i + 1) _ _ _ _
        (fun j hj => by
          rw [maskedScatter_getD_false mask r _ j [] hj]
          exact hr j hj) rp hrp

theorem decoderLoop_ref_step {Q P : Type} (pr : DecoderParams Q P)
    (mask : List Bool) (coords : List (List (List ℚ))) (L : ℕ) :
    ∀ (i : ℕ) (query : List Q) (query_pos : List P) (ref : List (List ℚ))
      (logits : List (List ℚ)) (t : ℕ), t < L →
      (ref :: (decoderLoop pr mask coords i query query_pos ref
          logits L).2.1).getD (t + 1) [] =
        maskedScatter mask
          ((ref :: (decoderLoop pr mask coords i query query_pos ref
            logits L).2.1).getD t [])
          ((((decoderLoop pr mask coords i query query_pos ref
              logits L).2.2.getD t []).map pr.softmaxFn).zip coords |>.map
            fun pc => vecMat pc.1 pc.2) := by
  induction L with
  | zero =>
    intro i q qp r lg t ht
    omega
  | succ L ih =>
    intro i q qp r lg t ht
    cases t with
    | zero => rfl
    | succ t2 =>
      have ht2 : t2 < L := by omega
      have hstep := ih (i + 1)
        (pr.layer i q qp r)
        (maskedScatter mask qp ((coords.zip (((lg.zip
          (pr.dyn_q_prob_branch i (maskedSelect mask
            (pr.layer i q qp r)))).map fun lr => addVec lr.1 lr.2).map
          pr.softmaxFn)).map fun cp =>
          pr.dyn_q_pos_with_prob_branch (pr.dyn_q_pos_branch cp.1) cp.2))
        (maskedScatter mask r (((((lg.zip (pr.dyn_q_prob_branch i
          (maskedSelect mask (pr.layer i q qp r)))).map fun lr =>
          addVec lr.1 lr.2).map pr.softmaxFn).zip coords).map fun pc =>
          vecMat pc.1 pc.2))
        ((lg.zip (pr.dyn_q_prob_branch i (maskedSelect mask
          (pr.layer i q qp r)))).map fun lr => addVec lr.1 lr.2)
        t2 ht2
      simp only [decoderLoop, List.getD_cons_succ]
      exact hstep

/-- C5: at each of the `num_layers` refinement steps only reference points
at positions where `dyn_q_mask` is true are updated, namely to the
probability-weighted combination of `dyn_q_coords`; every query outside
`dyn_q_mask` keeps its initial reference point in every entry of the
returned stack of `num_layers + 1` reference-point lists, whose first
entry is the initial `reference_points`. -/
theorem C5_reference_point_refinement {Q P : Type} (pr : DecoderParams Q P)
    (num_layers : ℕ) (query : List Q) (query_pos : List P)
    (reference_points : List (List ℚ)) (dyn_q_coords : List (List (List ℚ)))
    (dyn_q_probs : List (List ℚ)) (dyn_q_mask : List Bool) :
    (decoderForward pr num_layers query query_pos reference_points
        dyn_q_coords dyn_q_probs dyn_q_mask).2.1.length = num_layers + 1 ∧
    (decoderForward pr num_layers query query_pos reference_points
        dyn_q_coords dyn_q_probs dyn_q_mask).2.1.headI = reference_points ∧
    (∀ rp ∈ (decoderForward pr num_layers query query_pos reference_points
        dyn_q_coords dyn_q_probs dyn_q_mask).2.1,
      ∀ j, dyn_q_mask.getD j false = false →
        rp.getD j [] = reference_points.getD j []) ∧
    (∀ t, t < num_layers →
      (decoderForward pr num_layers query query_pos reference_points
          dyn_q_coords dyn_q_probs dyn_q_mask).2.1.getD (t + 1) [] =
        maskedScatter dyn_q_mask
          ((decoderForward pr num_layers query query_pos reference_points
            dyn_q_coords dyn_q_probs dyn_q_mask).2.1.getD t [])
          ((((decoderForward pr num_layers query query_pos reference_points
              dyn_q_coords dyn_q_probs dyn_q_mask).2.2.getD t []).map
            pr.softmaxFn).zip dyn_q_coords |>.map
            fun pc => vecMat pc.1 pc.2)) := by
  refine ⟨?_, rfl, ?_, ?_⟩
  · simp only [decoderForward, List.length_cons]
    rw [decoderLoop_ref_length]
  · intro rp hrp j hj
    simp only [decoderForward, List.mem_cons] at hrp
    rcases hrp with rfl | hrp
    · rfl
    · exact decoderLoop_ref_preserved pr dyn_q_mask dyn_q_coords
        reference_points num_layers 0 query query_pos reference_points
        (dyn_q_probs.map fun row => row.map pr.logFn)
        (fun _ _ => rfl) rp hrp j hj
  · intro t ht
    exact decoderLoop_ref_step pr dyn_q_mask dyn_q_coords num_layers 0 query
      query_pos reference_points (dyn_q_probs.map fun row => row.map pr.logFn)
      t ht

/-- Concrete decoder callables for the witness: queries and positions are
naturals, layers and branches are simple total functions. -/
def exDecParams : DecoderParams ℕ ℕ where
  layer := fun _ q _ _ => q
  post_norm := none
  dyn_q_prob_branch := fun _ qs => qs.map fun _ => [1, 0]
  softmaxFn := fun l => l
  logFn := fun x => x
  dyn_q_pos_branch := fun _ => 0
  dyn_q_pos_with_prob_branch := fun p _ => p

theorem getD_mem_of_lt {α : Type} {l : List α} {i : ℕ} {d : α}
    (h : i < l.length) : l.getD i d ∈ l := by
  rw [List.getD_eq_getElem?_getD, List.getElem?_eq_getElem h]
  exact List.getElem_mem h

theorem C5_witness :
    ((decoderForward exDecParams 2 [0, 0] [0, 0] [[0, 0], [1, 1]]
        [[[2, 2], [3, 3]]] [[1, 0]] [true, false]).2.1.getD 2 []).getD 1 [] =
      [1, 1] := by
  have h := C5_reference_point_refinement exDecParams 2 [0, 0] [0, 0]
    [[0, 0], [1, 1]] [[[2, 2], [3, 3]]] [[1, 0]] [true, false]
  have h2 : 2 < (decoderForward exDecParams 2 [0, 0] [0, 0] [[0, 0], [1, 1]]
      [[[2, 2], [3, 3]]] [[1, 0]] [true, false]).2.1.length := by
    rw [h.1]
    omega
  exact (h.2.2.1 _ (getD_mem_of_lt h2) 1 rfl).trans rfl

end MV2DFusion
